import Mathlib

/-!
Shallow embedding of `src/prisma/load_bulk_data.py` (xray-atlas repository).

The script walks a directory tree: root entries are molecule directories
(skipping one literally named "Energy Calibration"), each molecule directory is
iterated for edge subdirectories, and the files of the first edge directory
encountered are listed; for each `.txt` file a progress line is printed.

The filesystem is modelled as a tree of named nodes (`FSNode`); directory
iteration order is the order of the `children` list.  Python `pathlib`
string helpers (`stem`, `suffix`, `str.split`) are embedded on `List Char`
following CPython's implementations.  The run produces a list of `Effect`s
(only printing occurs in the source; a write constructor exists so that the
absence of writes is a statement, not a tautology of the type) together with
an optional fault, modelling an unhandled Python exception.
-/

set_option autoImplicit false

namespace XrayAtlas

/-- A filesystem node: a plain file or a directory with an ordered list of
children (the order models the order `Path.iterdir` yields entries). -/
inductive FSNode where
  | file (name : String)
  | dir (name : String) (children : List FSNode)

/-- The entry's name, as `Path.name`. -/
def FSNode.name : FSNode → String
  | .file n => n
  | .dir n _ => n

/-- Models `Path.is_dir()`. -/
def FSNode.isDir : FSNode → Bool
  | .file _ => false
  | .dir _ _ => true

/-- Index of the last occurrence of `'.'` in a character list, as Python
`str.rfind('.')` (returning `none` instead of `-1`). -/
def rfindDot : List Char → Option Nat
  | [] => none
  | c :: rest =>
    match rfindDot rest with
    | some i => some (i + 1)
    | none => if c == '.' then some 0 else none

/-- Models CPython `PurePath.suffix`: the part of the name from its last dot
on, provided that dot is neither the first nor the last character. -/
def pathSuffix (name : String) : String :=
  match rfindDot name.data with
  | some i => if 0 < i ∧ i < name.length - 1 then ⟨name.data.drop i⟩ else ""
  | none => ""

/-- Models CPython `PurePath.stem`: the name with `pathSuffix` removed. -/
def pathStem (name : String) : String :=
  match rfindDot name.data with
  | some i => if 0 < i ∧ i < name.length - 1 then ⟨name.data.take i⟩ else name
  | none => name

/-- Prepends `c` to the first piece of a split result (helper for `pySplit`). -/
def consHead (c : Char) : List (List Char) → List (List Char)
  | [] => [[c]]
  | h :: t => (c :: h) :: t

/-- Worker for `pySplit`: scans left to right; a positive `skip` means the
scan is still consuming the characters of a separator occurrence already
matched. -/
def pySplitGo (sep : List Char) : Nat → List Char → List (List Char)
  | _, [] => [[]]
  | Nat.succ k, _ :: rest => pySplitGo sep k rest
  | 0, c :: rest =>
    if sep.isPrefixOf (c :: rest) then
      [] :: pySplitGo sep (sep.length - 1) rest
    else
      consHead c (pySplitGo sep 0 rest)

/-- Models Python `str.split(sep)` for a non-empty separator: splits at each
non-overlapping occurrence of `sep`, scanning left to right.  (Python raises
on an empty separator; the source only ever calls it with `"deg"`.) -/
def pySplit (sep s : List Char) : List (List Char) :=
  pySplitGo sep 0 s

/-- Python `s[-2:]`: the last two characters (the whole list when shorter). -/
def lastTwo (l : List Char) : List Char := l.drop (l.length - 2)

/-- Models line 20 of the source, keeping its typo:
`anlge = file.stem.split("deg")[0][-2:]` (applied to the stem). -/
def anlge (stem : String) : String :=
  ⟨lastTwo ((pySplit "deg".data stem.data).headD [])⟩

/-- Spec-side characterisation used to settle C4: the portion of a character
list that precedes the first occurrence of the substring `sep` (the whole
list when `sep` does not occur).  This is written from the spec's words, to
be compared with the source's `split("deg")[0]`. -/
def prefixBeforeFirst (sep : List Char) : List Char → List Char
  | [] => []
  | c :: rest =>
    if sep.isPrefixOf (c :: rest) then [] else c :: prefixBeforeFirst sep rest

/-- An observable effect of the run.  The source only ever prints; `fsWrite`
would be emitted by any file/database mutation and never is. -/
inductive Effect where
  | output (line : String)
  | fsWrite (path : String) (content : String)
  deriving DecidableEq, Repr

/-- Body of the file loop (lines 18-23): a `.txt`-suffixed entry produces one
printed line built from the molecule name, the edge label and the angle. -/
def processFile (molecule edgeLabel : String) (entry : FSNode) : List Effect :=
  if pathSuffix entry.name == ".txt" then
    [Effect.output ("Loading data for " ++ molecule ++ " at the " ++ edgeLabel ++
      " at " ++ anlge (pathStem entry.name) ++ " degrees")]
  else []

/-- The edge loop (lines 15-24): skip non-directories; on the first directory,
compute `_edge = edge.stem[0].upper() + "-K"` (an empty stem faults, as
`edge.stem[0]` would), emit a line per `.txt` file, then `break` — entries
after the first directory are never examined. -/
def processEdges (molecule : String) : List FSNode → List Effect × Option String
  | [] => ([], none)
  | FSNode.file _ :: rest => processEdges molecule rest
  | FSNode.dir ename children :: _ =>
    match (pathStem ename).data with
    | [] => ([], some "IndexError: string index out of range")
    | c :: _ =>
      ((children.map (processFile molecule
        (String.singleton c.toUpper ++ "-K"))).flatten, none)

/-- Lines 10-12: directory entries of the root, excluding the one named
"Energy Calibration", mapped to their stems. -/
def molecules (root : List FSNode) : List String :=
  (root.filter (fun x => x.isDir && x.name != "Energy Calibration")).map
    (fun x => pathStem x.name)

/-- Resolving `data_path / name` against the root listing. -/
def lookup (root : List FSNode) (name : String) : Option FSNode :=
  root.find? (fun x => x.name == name)

/-- `(data_path / molecule).iterdir()` and the edge loop for one molecule:
faults when the path does not exist or is not a directory. -/
def runMolecule (root : List FSNode) (molecule : String) :
    List Effect × Option String :=
  match lookup root molecule with
  | some (FSNode.dir _ children) => processEdges molecule children
  | some (FSNode.file _) => ([], some "NotADirectoryError")
  | none => ([], some "FileNotFoundError")

/-- The molecule loop (line 14): molecules processed in order, stopping at the
first unhandled fault. -/
def runAll (root : List FSNode) : List String → List Effect × Option String
  | [] => ([], none)
  | m :: ms =>
    match runMolecule root m with
    | (es, some err) => (es, some err)
    | (es, none) =>
      match runAll root ms with
      | (es2, f2) => (es ++ es2, f2)

/-- The whole script: effects emitted (in order) and the fault that aborted
the run, if any. -/
def run (root : List FSNode) : List Effect × Option String :=
  runAll root (molecules root)

/-! ### Helper lemmas -/

theorem headD_consHead (c : Char) (L : List (List Char)) :
    (consHead c L).headD [] = c :: L.headD [] := by
  cases L <;> rfl

theorem pySplit_headD (sep : List Char) (s : List Char) :
    (pySplit sep s).headD [] = prefixBeforeFirst sep s := by
  induction s with
  | nil => rfl
  | cons c rest ih =>
    rw [pySplit] at ih ⊢
    rw [pySplitGo, prefixBeforeFirst]
    by_cases h : sep.isPrefixOf (c :: rest)
    · simp [h]
    · rw [if_neg h, if_neg h, headD_consHead, ih]

theorem pathStem_data_cons (c : Char) (cs : List Char) :
    ∃ l, (pathStem (String.mk (c :: cs))).data = c :: l := by
  unfold pathStem
  cases hr : rfindDot (String.mk (c :: cs)).data with
  | none => exact ⟨cs, rfl⟩
  | some i =>
    by_cases hc : 0 < i ∧ i < (String.mk (c :: cs)).length - 1
    · simp only [hc, if_true]
      obtain ⟨j, rfl⟩ : ∃ j, i = j + 1 := ⟨i - 1, by omega⟩
      exact ⟨cs.take j, rfl⟩
    · simp only [hc, if_false]
      exact ⟨cs, rfl⟩

theorem pathStem_data_ne_nil (name : String) (h : name ≠ "") :
    (pathStem name).data ≠ [] := by
  obtain ⟨data⟩ := name
  cases data with
  | nil => exact absurd rfl h
  | cons c cs =>
    obtain ⟨l, hl⟩ := pathStem_data_cons c cs
    simp [hl]

theorem processFile_effects (mol label : String) (f : FSNode) (e : Effect)
    (he : e ∈ processFile mol label f) : ∃ s, e = Effect.output s := by
  unfold processFile at he
  split at he
  · exact ⟨_, List.mem_singleton.mp he⟩
  · exact absurd he (List.not_mem_nil e)

theorem processEdges_effects (mol : String) (l : List FSNode) (e : Effect)
    (he : e ∈ (processEdges mol l).1) : ∃ s, e = Effect.output s := by
  induction l with
  | nil => exact absurd he (List.not_mem_nil e)
  | cons x xs ih =>
    cases x with
    | file n =>
      rw [processEdges] at he
      exact ih he
    | dir n ch =>
      rw [processEdges] at he
      cases hd : (pathStem n).data with
      | nil => rw [hd] at he; exact absurd he (List.not_mem_nil e)
      | cons c l' =>
        rw [hd] at he
        simp only [List.mem_flatten, List.mem_map] at he
        obtain ⟨piece, ⟨f, _, rfl⟩, hep⟩ := he
        exact processFile_effects _ _ f e hep

theorem runMolecule_effects (root : List FSNode) (m : String) (e : Effect)
    (he : e ∈ (runMolecule root m).1) : ∃ s, e = Effect.output s := by
  unfold runMolecule at he
  cases hlk : lookup root m with
  | none => rw [hlk] at he; exact absurd he (List.not_mem_nil e)
  | some node =>
    rw [hlk] at he
    cases node with
    | file n => exact absurd he (List.not_mem_nil e)
    | dir n ch => exact processEdges_effects m ch e he

theorem runAll_effects (root : List FSNode) (ms : List String) (e : Effect)
    (he : e ∈ (runAll root ms).1) : ∃ s, e = Effect.output s := by
  induction ms with
  | nil => exact absurd he (List.not_mem_nil e)
  | cons m ms ih =>
    rw [runAll] at he
    cases hrm : runMolecule root m with
    | mk es f =>
      rw [hrm] at he
      cases f with
      | some err =>
        exact runMolecule_effects root m e (hrm ▸ he)
      | none =>
        rcases List.mem_append.mp he with h1 | h2
        · exact runMolecule_effects root m e (by rw [hrm]; exact h1)
        · exact ih h2

theorem mem_molecules {root : List FSNode} {m : String} (hm : m ∈ molecules root) :
    ∃ x ∈ root, x.isDir = true ∧ x.name ≠ "Energy Calibration" ∧
      m = pathStem x.name := by
  unfold molecules at hm
  obtain ⟨x, hx, rfl⟩ := List.mem_map.mp hm
  obtain ⟨hxr, hpx⟩ := List.mem_filter.mp hx
  rw [Bool.and_eq_true] at hpx
  exact ⟨x, hxr, hpx.1, by simpa using hpx.2, rfl⟩

theorem lookup_filter (root : List FSNode) (m : String)
    (hm : m ≠ "Energy Calibration") :
    lookup (root.filter fun x => x.name != "Energy Calibration") m =
      lookup root m := by
  induction root with
  | nil => rfl
  | cons x xs ih =>
    by_cases hx : x.name = "Energy Calibration"
    · have h2 : (x.name == m) = false := by
        rw [hx]; exact beq_eq_false_iff_ne.mpr fun hh => hm hh.symm
      have h1 : (x.name != "Energy Calibration") = false := by simp [hx]
      simp only [lookup, List.filter_cons, h1, List.find?] at ih ⊢
      simp only [h2, cond_false]
      exact ih
    · have h1 : (x.name != "Energy Calibration") = true := by simp [hx]
      simp only [lookup, List.filter_cons, h1, List.find?] at ih ⊢
      cases hq : (x.name == m) with
      | true => simp [hq]
      | false => simp only [hq, cond_false]; exact ih

theorem molecules_filter (root : List FSNode) :
    molecules (root.filter fun x => x.name != "Energy Calibration") =
      molecules root := by
  unfold molecules
  rw [List.filter_filter]
  congr 1
  apply List.filter_congr
  intro x _
  cases hx : (x.name != "Energy Calibration") <;>
    simp [hx, FSNode.isDir, Bool.and_comm]

theorem runAll_congr (r1 r2 : List FSNode) (ms : List String)
    (h : ∀ m ∈ ms, runMolecule r1 m = runMolecule r2 m) :
    runAll r1 ms = runAll r2 ms := by
  induction ms with
  | nil => rfl
  | cons m ms ih =>
    rw [runAll, runAll, h m (List.mem_cons_self _ _),
      ih (fun x hx => h x (List.mem_cons_of_mem _ hx))]

theorem run_single (m : String) (ch : List FSNode) (hstem : pathStem m = m)
    (hne : m ≠ "Energy Calibration") :
    run [FSNode.dir m ch] = processEdges m ch := by
  have hb : (m != "Energy Calibration") = true := by simp [hne]
  have hmols : molecules [FSNode.dir m ch] = [m] := by
    simp [molecules, FSNode.isDir, FSNode.name, hb, hstem]
  have hlk : lookup [FSNode.dir m ch] m = some (FSNode.dir m ch) := by
    simp [lookup, FSNode.name]
  unfold run
  rw [hmols]
  cases hpe : processEdges m ch with
  | mk es f =>
    cases f with
    | none => simp [runAll, runMolecule, hlk, hpe]
    | some err => simp [runAll, runMolecule, hlk, hpe]

/-! ### Claim theorems -/

/-- C1: for every molecule directory, at most one edge subdirectory is
processed — the first directory-typed entry of the molecule directory has its
files listed and emitted (entries before it that are not directories are
skipped), and the edge loop `break`s after it, so every edge subdirectory
yielded later contributes no output: processing the whole listing equals
processing just that first directory. -/
theorem first_edge_only (mol : String) (pre : List FSNode) (d : FSNode)
    (post : List FSNode) (hpre : ∀ x ∈ pre, x.isDir = false)
    (hd : d.isDir = true) :
    processEdges mol (pre ++ d :: post) = processEdges mol [d] := by
  induction pre with
  | nil =>
    cases d with
    | file n => simp [FSNode.isDir] at hd
    | dir n ch => simp only [List.nil_append]; rw [processEdges, processEdges]
  | cons x xs ih =>
    cases x with
    | file n =>
      rw [List.cons_append, processEdges]
      exact ih fun y hy => hpre y (List.mem_cons_of_mem _ hy)
    | dir n ch =>
      have hcontra := hpre (FSNode.dir n ch) (List.mem_cons_self _ _)
      simp [FSNode.isDir] at hcontra

/-- Witness for C1 at a concrete listing: a stray file, then a carbon edge,
then an oxygen edge; the oxygen edge contributes nothing. -/
theorem first_edge_only_witness :
    (∀ x ∈ [FSNode.file "readme.md"], x.isDir = false) ∧
    (FSNode.dir "carbon" [FSNode.file "45deg.txt"]).isDir = true ∧
    processEdges "PTCDA"
        ([FSNode.file "readme.md"] ++ FSNode.dir "carbon" [FSNode.file "45deg.txt"] ::
          [FSNode.dir "oxygen" [FSNode.file "30deg.txt"]]) =
      processEdges "PTCDA" [FSNode.dir "carbon" [FSNode.file "45deg.txt"]] :=
  ⟨by decide, by decide, first_edge_only "PTCDA" _ _ _ (by decide) (by decide)⟩

/-- C3, counterexample: the claim says a processed file whose stem lacks
"deg" (here "scan") or has fewer than 2 characters (here "5") raises an
unhandled fault.  In fact Python slicing is total: the run completes with no
fault and both files produce output lines (angle "an" and "5"). -/
theorem malformed_name_no_fault_cex :
    run [FSNode.dir "mol" [FSNode.dir "carbon"
        [FSNode.file "scan.txt", FSNode.file "5.txt"]]] =
      ([Effect.output "Loading data for mol at the C-K at an degrees",
        Effect.output "Loading data for mol at the C-K at 5 degrees"], none) := by
  decide

/-- C3, amended: processing the files of an edge directory never faults,
whatever the filenames are — the only fault in the edge loop is an empty
directory stem (impossible for a non-empty name), and `[-2:]` slicing is
total on short or "deg"-free stems. -/
theorem edge_files_never_fault (mol ename : String)
    (children rest : List FSNode) (h : ename ≠ "") :
    (processEdges mol (FSNode.dir ename children :: rest)).2 = none := by
  rw [processEdges]
  cases hd : (pathStem ename).data with
  | nil => exact absurd hd (pathStem_data_ne_nil ename h)
  | cons c l => rfl

/-- Witness for C3's amended statement on a malformed concrete filename. -/
theorem edge_files_never_fault_witness :
    ("carbon" : String) ≠ "" ∧
    (processEdges "mol" [FSNode.dir "carbon" [FSNode.file "scan.txt"]]).2 = none :=
  ⟨by decide, edge_files_never_fault "mol" "carbon" [FSNode.file "scan.txt"] [] (by decide)⟩

/-- C5: for a processed edge subdirectory with non-empty name `c :: cs`, the
label used in every line it emits is the uppercased first character of the
name followed by "-K" (the code takes `edge.stem[0]`, and the first character
of the stem is the first character of the name). -/
theorem edge_label_upper_first (mol : String) (c : Char) (cs : List Char)
    (children rest : List FSNode) :
    processEdges mol (FSNode.dir (String.mk (c :: cs)) children :: rest) =
      ((children.map (processFile mol
        (String.singleton (Char.toUpper c) ++ "-K"))).flatten, none) := by
  obtain ⟨l, hl⟩ := pathStem_data_cons c cs
  rw [processEdges, hl]

/-- C7: within the processed edge directory, an entry produces an output line
iff its suffix is exactly ".txt"; any other suffix (or none) produces no
line. -/
theorem txt_suffix_filter (mol label : String) (e : FSNode) :
    (pathSuffix e.name ≠ ".txt" → processFile mol label e = []) ∧
    (pathSuffix e.name = ".txt" → processFile mol label e ≠ []) := by
  constructor <;> intro h <;> simp [processFile, h]

/-- Witness for C7: a ".csv" entry yields no output line. -/
theorem txt_suffix_filter_witness :
    pathSuffix (FSNode.file "notes.csv").name ≠ ".txt" ∧
    processFile "mol" "C-K" (FSNode.file "notes.csv") = [] :=
  ⟨by decide, (txt_suffix_filter "mol" "C-K" (FSNode.file "notes.csv")).1 (by decide)⟩

/-- C8: for the file "5deg.txt" the segment before "deg" is the single
character "5", and Python's `[-2:]` on it returns "5" rather than failing;
the full run prints the line with angle "5". -/
theorem one_char_angle :
    anlge (pathStem "5deg.txt") = "5" ∧
    run [FSNode.dir "mol" [FSNode.dir "carbon" [FSNode.file "5deg.txt"]]] =
      ([Effect.output "Loading data for mol at the C-K at 5 degrees"], none) := by
  decide

/-- C10: the ".txt" filter tests only the entry's suffix, never its kind — a
directory node is processed by the file-loop body exactly as a file node of
the same name would be, and a directory named "backup.txt" does produce an
output line. -/
theorem txt_filter_ignores_kind :
    (∀ (mol label name : String) (children : List FSNode),
      processFile mol label (FSNode.dir name children) =
        processFile mol label (FSNode.file name)) ∧
    processFile "mol" "C-K" (FSNode.dir "backup.txt" [FSNode.file "x"]) =
      [Effect.output "Loading data for mol at the C-K at up degrees"] :=
  ⟨fun _ _ _ _ => rfl, by decide⟩

/-- C2: a molecule directory (any valid molecule name: suffix-free and not
"Energy Calibration") containing the edge subdirectory "carbon" with the file
"45deg_scan.txt" yields the output line
"Loading data for <molecule> at the C-K at 45 degrees". -/
theorem carbon_line (m : String) (hstem : pathStem m = m)
    (hne : m ≠ "Energy Calibration") :
    Effect.output ("Loading data for " ++ m ++ " at the C-K at 45 degrees") ∈
      (run [FSNode.dir m [FSNode.dir "carbon" [FSNode.file "45deg_scan.txt"]]]).1 := by
  rw [run_single m _ hstem hne]
  show Effect.output ("Loading data for " ++ m ++ " at the C-K at 45 degrees") ∈
    [Effect.output ("Loading data for " ++ m ++ " at the " ++
      (String.singleton (Char.toUpper 'c') ++ "-K") ++ " at " ++
      anlge (pathStem "45deg_scan.txt") ++ " degrees")]
  apply List.mem_singleton.mpr
  apply congrArg
  simp only [String.append_assoc]
  apply congrArg
  apply congrArg
  decide

/-- Witness for C2 with the concrete molecule "PTCDA". -/
theorem carbon_line_witness :
    pathStem "PTCDA" = "PTCDA" ∧ ("PTCDA" : String) ≠ "Energy Calibration" ∧
    Effect.output ("Loading data for " ++ "PTCDA" ++ " at the C-K at 45 degrees") ∈
      (run [FSNode.dir "PTCDA" [FSNode.dir "carbon" [FSNode.file "45deg_scan.txt"]]]).1 :=
  ⟨by decide, by decide, carbon_line "PTCDA" (by decide) (by decide)⟩

/-- C4: for every ".txt"-suffixed file processed by the file-loop body, the
angle string in its printed line is the last two characters of the portion of
the filename stem preceding the first occurrence of "deg" (the whole stem
when "deg" does not occur) — `split("deg")[0]` is exactly that portion. -/
theorem angle_from_split (mol label name : String)
    (hsuf : pathSuffix name = ".txt") :
    processFile mol label (FSNode.file name) =
      [Effect.output ("Loading data for " ++ mol ++ " at the " ++ label ++
        " at " ++
        String.mk (lastTwo (prefixBeforeFirst "deg".data (pathStem name).data)) ++
        " degrees")] := by
  have h := pySplit_headD "deg".data (pathStem name).data
  rw [List.headD_eq_head?_getD] at h
  simp [processFile, FSNode.name, hsuf, anlge, h]

/-- Witness for C4 on "45deg_scan.txt". -/
theorem angle_from_split_witness :
    pathSuffix "45deg_scan.txt" = ".txt" ∧
    processFile "PTCDA" "C-K" (FSNode.file "45deg_scan.txt") =
      [Effect.output ("Loading data for " ++ "PTCDA" ++ " at the " ++ "C-K" ++
        " at " ++
        String.mk (lastTwo (prefixBeforeFirst "deg".data (pathStem "45deg_scan.txt").data)) ++
        " degrees")] :=
  ⟨by decide, angle_from_split "PTCDA" "C-K" "45deg_scan.txt" (by decide)⟩

/-- C6, counterexample: the root holds the excluded directory
"Energy Calibration" (whose carbon edge holds "45deg.txt") and an *empty*
directory "Energy Calibration.bak".  The latter's stem is
"Energy Calibration", so the by-stem lookup resolves to the excluded
directory and the run emits a line for a file nested under it — refuting
"no output line is produced for it or for anything nested under it". -/
theorem ec_nested_output_cex :
    run [FSNode.dir "Energy Calibration" [FSNode.dir "carbon" [FSNode.file "45deg.txt"]],
         FSNode.dir "Energy Calibration.bak" []] =
      ([Effect.output "Loading data for Energy Calibration at the C-K at 45 degrees"],
        none) := by
  decide

/-- C6, amended: "Energy Calibration" never enters the molecule list, and
provided no *other* root directory's stem equals "Energy Calibration", the
excluded directory contributes nothing: deleting every root entry of that
name leaves the run unchanged. -/
theorem ec_excluded (root : List FSNode)
    (h : ∀ x ∈ root, x.isDir = true → x.name ≠ "Energy Calibration" →
      pathStem x.name ≠ "Energy Calibration") :
    "Energy Calibration" ∉ molecules root ∧
    run root = run (root.filter fun x => x.name != "Energy Calibration") := by
  constructor
  · intro hmem
    obtain ⟨x, hxr, hdir, hnm, heq⟩ := mem_molecules hmem
    exact h x hxr hdir hnm heq.symm
  · unfold run
    rw [molecules_filter]
    apply runAll_congr
    intro m hm
    obtain ⟨x, hxr, hdir, hnm, heq⟩ := mem_molecules hm
    have hmne : m ≠ "Energy Calibration" := heq ▸ h x hxr hdir hnm
    unfold runMolecule
    rw [lookup_filter root m hmne]

/-- Witness for C6's amended statement on a concrete root. -/
theorem ec_excluded_witness :
    (∀ x ∈ [FSNode.dir "Energy Calibration" [FSNode.file "cal.txt"],
          FSNode.dir "TCNQ" [FSNode.dir "carbon" [FSNode.file "45deg.txt"]]],
      x.isDir = true → x.name ≠ "Energy Calibration" →
        pathStem x.name ≠ "Energy Calibration") ∧
    ("Energy Calibration" ∉ molecules
        [FSNode.dir "Energy Calibration" [FSNode.file "cal.txt"],
         FSNode.dir "TCNQ" [FSNode.dir "carbon" [FSNode.file "45deg.txt"]]] ∧
      run [FSNode.dir "Energy Calibration" [FSNode.file "cal.txt"],
           FSNode.dir "TCNQ" [FSNode.dir "carbon" [FSNode.file "45deg.txt"]]] =
        run ([FSNode.dir "Energy Calibration" [FSNode.file "cal.txt"],
              FSNode.dir "TCNQ" [FSNode.dir "carbon" [FSNode.file "45deg.txt"]]].filter
          fun x => x.name != "Energy Calibration")) :=
  ⟨by decide, ec_excluded _ (by decide)⟩

/-- C9: every effect of every run is a printed line — no `fsWrite` (file,
database row, or any other persisted artifact) is ever emitted; the run only
reads the tree, which the embedding passes around immutably. -/
theorem output_only (root : List FSNode) (e : Effect)
    (he : e ∈ (run root).1) : ∃ s, e = Effect.output s :=
  runAll_effects root (molecules root) e he

/-- Witness for C9 on a concrete run and its one effect. -/
theorem output_only_witness :
    Effect.output "Loading data for mol at the C-K at 45 degrees" ∈
      (run [FSNode.dir "mol" [FSNode.dir "carbon" [FSNode.file "45deg.txt"]]]).1 ∧
    ∃ s, Effect.output "Loading data for mol at the C-K at 45 degrees" =
      Effect.output s :=
  ⟨by decide,
    output_only [FSNode.dir "mol" [FSNode.dir "carbon" [FSNode.file "45deg.txt"]]]
      (Effect.output "Loading data for mol at the C-K at 45 degrees") (by decide)⟩

end XrayAtlas
